import Mathlib

/-!
Verification development for the flow execution engine
(repository `ProggePal/flow`, `main.go` and related sources).

The engine's strings are modelled as `List Char`.  The Go string
primitives used by the engine (`strings.Contains`, `strings.Split`,
`strings.ReplaceAll`, `strings.TrimSpace`, `strings.Trim`, and the
regular expression search for tag occurrences) are given executable
definitions below, translated from their documented Go semantics as used
by the source.  Brace characters are written `'\x7b'` / `'\x7d'`.
-/

/-- The opening brace character of a template tag. -/
def lbrace : Char := '\x7b'

/-- The closing brace character of a template tag. -/
def rbrace : Char := '\x7d'

/-- The tag opener `\x7b\x7b`. -/
def tagOpen : List Char := [lbrace, lbrace]

/-- The template tag spelled for a name: opener, name, closer.
This is the string `"\x7b\x7b" + name + "\x7d\x7d"` built by `fillTags`
(`main.go`, `res = strings.ReplaceAll(res, "\x7b\x7b"+k+"\x7d\x7d", v)`). -/
def tagOf (name : List Char) : List Char :=
  tagOpen ++ name ++ [rbrace, rbrace]

/-- Go `strings.Contains(s, pat)`: `pat` occurs as a substring of `s`. -/
def hasSub (pat : List Char) : List Char → Bool
  | [] => pat.isEmpty
  | c :: r => pat.isPrefixOf (c :: r) || hasSub pat r

/-- Fuel-indexed worker for `replaceAllSub`; the fuel (always called
with at least the length of the text) makes the recursion structural so
that the function reduces inside the kernel. -/
def replaceAllF (pat rep : List Char) : Nat → List Char → List Char
  | _, [] => []
  | 0, s => s
  | fuel + 1, c :: r =>
    if pat.isPrefixOf (c :: r) ∧ pat ≠ [] then
      rep ++ replaceAllF pat rep fuel ((c :: r).drop pat.length)
    else
      c :: replaceAllF pat rep fuel r

theorem replaceAllF_nil (pat rep : List Char) (f : Nat) :
    replaceAllF pat rep f [] = [] := by cases f <;> rfl

theorem replaceAllF_fuel (pat rep : List Char) :
    ∀ f1 f2 s, s.length ≤ f1 → s.length ≤ f2 →
      replaceAllF pat rep f1 s = replaceAllF pat rep f2 s := by
  intro f1
  induction f1 with
  | zero =>
    intro f2 s h1 _
    have : s = [] := List.length_eq_zero.mp (Nat.le_zero.mp h1)
    subst this
    rw [replaceAllF_nil, replaceAllF_nil]
  | succ g1 ih =>
    intro f2 s h1 h2
    match s with
    | [] => rw [replaceAllF_nil, replaceAllF_nil]
    | c :: r =>
      obtain ⟨g2, rfl⟩ : ∃ g2, f2 = g2 + 1 := by
        cases f2 with
        | zero => simp at h2
        | succ g2 => exact ⟨g2, rfl⟩
      rw [replaceAllF, replaceAllF]
      simp only [List.length_cons] at h1 h2
      by_cases hp : pat.isPrefixOf (c :: r) ∧ pat ≠ []
      · rw [if_pos hp, if_pos hp]
        have hlen : 0 < pat.length := List.length_pos.mpr hp.2
        have hd : ((c :: r).drop pat.length).length ≤ g1 := by
          simp only [List.length_drop, List.length_cons]
          omega
        have hd2 : ((c :: r).drop pat.length).length ≤ g2 := by
          simp only [List.length_drop, List.length_cons]
          omega
        rw [ih g2 _ hd hd2]
      · rw [if_neg hp, if_neg hp]
        rw [ih g2 r (by omega) (by omega)]

/-- Go `strings.ReplaceAll(s, pat, rep)` for a non-empty pattern:
replace every non-overlapping leftmost occurrence of `pat` in `s` by
`rep`; the inserted replacement text is not re-scanned.  (The engine
only ever calls this with the non-empty patterns `"\x7b\x7b...\x7d\x7d"`;
for `pat = []` this definition returns `s` unchanged.) -/
def replaceAllSub (pat rep s : List Char) : List Char :=
  replaceAllF pat rep s.length s

theorem replaceAllSub_nil (pat rep : List Char) :
    replaceAllSub pat rep [] = [] := rfl

/-- The defining recursion of `replaceAllSub`, with the fuel hidden. -/
theorem replaceAllSub_cons (pat rep : List Char) (c : Char) (r : List Char) :
    replaceAllSub pat rep (c :: r) =
      if pat.isPrefixOf (c :: r) ∧ pat ≠ [] then
        rep ++ replaceAllSub pat rep ((c :: r).drop pat.length)
      else
        c :: replaceAllSub pat rep r := by
  show replaceAllF pat rep (r.length + 1) (c :: r) = _
  rw [replaceAllF]
  by_cases hp : pat.isPrefixOf (c :: r) ∧ pat ≠ []
  · rw [if_pos hp, if_pos hp]
    have hlen : 0 < pat.length := List.length_pos.mpr hp.2
    have : ((c :: r).drop pat.length).length ≤ r.length := by
      simp only [List.length_drop, List.length_cons]
      omega
    rw [replaceAllSub, replaceAllF_fuel pat rep r.length _ _ this le_rfl]
  · rw [if_neg hp, if_neg hp]
    rfl

/-- Go `strings.Split(s, sep)` for the two-character separators `"!="`
and `"=="` used by the conditional evaluator: split `s` around each
non-overlapping leftmost instance of `[c1, c2]`. -/
def split2 (c1 c2 : Char) : List Char → List (List Char)
  | [] => [[]]
  | [a] => [[a]]
  | a :: b :: rest =>
    if a = c1 ∧ b = c2 then
      [] :: split2 c1 c2 rest
    else
      match split2 c1 c2 (b :: rest) with
      | [] => [[a]]
      | l :: ls => (a :: l) :: ls

/-- Whitespace characters trimmed by Go `strings.TrimSpace` (the ASCII
subset, which is all the engine's guards use). -/
def isSpaceGo (c : Char) : Bool :=
  c = ' ' || c = '\t' || c = '\n' || c = '\r' || c = '\x0b' || c = '\x0c'

/-- The quote characters of the cutset `"'\""` in
`strings.Trim(strings.TrimSpace(parts[1]), "'\"")`. -/
def isQuoteGo (c : Char) : Bool :=
  c = '\'' || c = '"'

/-- Trim characters satisfying `p` from both ends of a list
(Go `strings.TrimFunc` behaviour, used for `TrimSpace` and `Trim`). -/
def trimBy (p : Char → Bool) (l : List Char) : List Char :=
  ((l.dropWhile p).reverse.dropWhile p).reverse

/-- Go `strings.TrimSpace`. -/
def trimSpace (l : List Char) : List Char := trimBy isSpaceGo l

/-- Go `strings.Trim(·, "'\"")`. -/
def trimQuotes (l : List Char) : List Char := trimBy isQuoteGo l

/-- Helper for the regex `\x7b\x7b(.*?)\x7d\x7d`: given the text right
after an opener, find the lazily-matched tag name: the shortest prefix
containing no newline (Go's `.` does not match `\n`) that is followed by
the closer `\x7d\x7d`.  Returns the name and the remaining text after
the closer, or `none` when no such closer exists. -/
def tagEnd : List Char → Option (List Char × List Char)
  | [] => none
  | [_] => none
  | c :: c2 :: r =>
    if c = rbrace ∧ c2 = rbrace then
      some ([], r)
    else if c = '\n' then
      none
    else
      (tagEnd (c2 :: r)).map (fun p => (c :: p.1, p.2))

theorem tagEnd_length (s : List Char) :
    ∀ name rest, tagEnd s = some (name, rest) → rest.length ≤ s.length := by
  induction s with
  | nil => intro name rest h; simp [tagEnd] at h
  | cons c t ih =>
    intro name rest h
    match t, ih with
    | [], _ => simp [tagEnd] at h
    | c2 :: r, ih =>
      by_cases hc : c = rbrace ∧ c2 = rbrace
      · rw [tagEnd, if_pos hc] at h
        cases h
        simp
        omega
      · by_cases hn : c = '\n'
        · rw [tagEnd, if_neg hc, if_pos hn] at h
          simp at h
        · rw [tagEnd, if_neg hc, if_neg hn] at h
          match hrec : tagEnd (c2 :: r) with
          | none => rw [hrec] at h; simp at h
          | some (n2, r2) =>
            rw [hrec] at h
            simp at h
            have hle := ih n2 r2 hrec
            obtain ⟨h1, h2⟩ := h
            subst h2
            simp only [List.length_cons] at hle ⊢
            omega

/-- Fuel-indexed worker for `extractTags` (structural recursion on the
fuel, which is always supplied as at least the length of the text). -/
def extractTagsF : Nat → List Char → List (List Char)
  | _, [] => []
  | _, [_] => []
  | 0, _ => []
  | fuel + 1, c :: c2 :: r =>
    if c = lbrace ∧ c2 = lbrace then
      match tagEnd r with
      | some (name, rest) => name :: extractTagsF fuel rest
      | none => extractTagsF fuel (c2 :: r)
    else
      extractTagsF fuel (c2 :: r)

theorem extractTagsF_nil (f : Nat) : extractTagsF f [] = [] := by
  cases f <;> rfl

theorem extractTagsF_one (f : Nat) (a : Char) : extractTagsF f [a] = [] := by
  cases f <;> rfl

theorem extractTagsF_fuel :
    ∀ f1 f2 s, s.length ≤ f1 → s.length ≤ f2 →
      extractTagsF f1 s = extractTagsF f2 s := by
  intro f1
  induction f1 with
  | zero =>
    intro f2 s h1 _
    have : s = [] := List.length_eq_zero.mp (Nat.le_zero.mp h1)
    subst this
    rw [extractTagsF_nil, extractTagsF_nil]
  | succ g1 ih =>
    intro f2 s h1 h2
    match s with
    | [] => rw [extractTagsF_nil, extractTagsF_nil]
    | [a] => rw [extractTagsF_one, extractTagsF_one]
    | c :: c2 :: r =>
      obtain ⟨g2, rfl⟩ : ∃ g2, f2 = g2 + 1 := by
        cases f2 with
        | zero => simp at h2
        | succ g2 => exact ⟨g2, rfl⟩
      rw [extractTagsF, extractTagsF]
      simp only [List.length_cons] at h1 h2
      by_cases hb : c = lbrace ∧ c2 = lbrace
      · rw [if_pos hb, if_pos hb]
        cases hend : tagEnd r with
        | none =>
          show extractTagsF g1 (c2 :: r) = extractTagsF g2 (c2 :: r)
          exact ih g2 (c2 :: r) (by simp; omega) (by simp; omega)
        | some p =>
          obtain ⟨name, rest⟩ := p
          show name :: extractTagsF g1 rest = name :: extractTagsF g2 rest
          have := tagEnd_length r name rest hend
          rw [ih g2 rest (by omega) (by omega)]
      · rw [if_neg hb, if_neg hb]
        exact ih g2 (c2 :: r) (by simp; omega) (by simp; omega)

/-- All tag-name captures of Go
`regexp.MustCompile("\x7b\x7b(.*?)\x7d\x7d").FindAllStringSubmatch(s, -1)`:
scan left to right; at an opener, lazily match the nearest closer (the
name may not span a newline); on success continue after the closer, on
failure — and at any other character — advance one position. -/
def extractTags (s : List Char) : List (List Char) :=
  extractTagsF s.length s

/-!
## Data model and the engine's pure core

Translated from the current version of `main.go` (`type Step`,
`depsReady`, `fillTags`, and the inline guard-evaluation blocks of
`runFlow`).  Fields of `Step` that no engine computation reads
(`TabID`, `Model`, `Tool`, `Args`, logging-only `Output`/`History`)
are omitted; the `If` field is called `ifCond` (`if` is a keyword).
-/

/-- The reserved tag name `clipboard`. -/
def clipName : List Char := "clipboard".toList

/-- The reserved tag name `input`. -/
def inpName : List Char := "input".toList

/-- A flow step (Go `type Step`). -/
structure StepT where
  id : List Char
  type : List Char
  prompt : List Char
  filename : List Char
  content : List Char
  ifCond : List Char
  source : List Char
  maxTurns : Option Nat := none
deriving DecidableEq

/-- The concatenation `s.Prompt + s.Filename + s.Content + s.If + s.Source`
built at the top of `depsReady`. -/
def combinedFields (s : StepT) : List Char :=
  s.prompt ++ s.filename ++ s.content ++ s.ifCond ++ s.source

/-- Lookup in the shared result map: Go `results[tag]` yields the zero
value `""` when the key is absent. -/
def storeGet : List (List Char × List Char) → List Char → List Char
  | [], _ => []
  | (k, v) :: rest, key => if k = key then v else storeGet rest key

/-- Go `depsReady(s, validIDs)`: extract every tag occurrence from the
concatenated templatable fields; the step is ready unless some tag is a
known step identifier whose published result is still the empty string. -/
def depsReady (s : StepT) (known : List (List Char))
    (store : List (List Char × List Char)) : Bool :=
  (extractTags (combinedFields s)).all
    fun t => !(decide (t ∈ known) && (storeGet store t).isEmpty)

/-- The set of step identifiers a step is blocked on (spec contract
`blockingDeps(step, knownStepIds)`): the tag occurrences of the
concatenated templatable fields that are known step identifiers — the
exact collection of tags for which `depsReady` consults the store. -/
def blockingDeps (s : StepT) (known : List (List Char)) : List (List Char) :=
  (extractTags (combinedFields s)).filter fun t => decide (t ∈ known)

/-- Go `fillTags(prompt)`: sequential replacement passes — first the
reserved `clipboard` tag (value read from the ambient clipboard), then
the reserved `input` tag (the CLI argument string), then one
`ReplaceAll` pass per stored result.  The Go `for k, v := range results`
iterates in unspecified map order; the store is passed here as an
association list whose order is one such iteration order. -/
def fillTags (cb inp : List Char) (store : List (List Char × List Char))
    (text : List Char) : List Char :=
  let r0 := if hasSub (tagOf clipName) text
            then replaceAllSub (tagOf clipName) cb text else text
  let r1 := if hasSub (tagOf inpName) r0
            then replaceAllSub (tagOf inpName) inp r0 else r0
  store.foldl (fun acc kv => replaceAllSub (tagOf kv.1) kv.2 acc) r1

/-- The inline guard-evaluation block of `runFlow` (repeated verbatim in
the `file_write`, `mcp` and default branches): on the substituted guard,
test `!=` first, then `==`; split around the operator; when the split
has exactly two parts, whitespace-trim the left part, whitespace-trim
and quote-strip the right part, and compare as opaque strings.
Any other shape leaves `shouldRun` true. -/
def evalCond (cond : List Char) : Bool :=
  if hasSub ['!', '='] cond then
    match split2 '!' '=' cond with
    | [l, r] =>
      if trimSpace l = trimQuotes (trimSpace r) then false else true
    | _ => true
  else if hasSub ['=', '='] cond then
    match split2 '=' '=' cond with
    | [l, r] =>
      if trimSpace l = trimQuotes (trimSpace r) then true else false
    | _ => true
  else true

/-- The full conditional resolution of a step's guard: an empty `If`
field means run; otherwise the guard is template-substituted and the
comparison block above decides. -/
def shouldRunStep (cb inp : List Char) (store : List (List Char × List Char))
    (guard : List Char) : Bool :=
  if guard = [] then true else evalCond (fillTags cb inp store guard)


/-!
## Relating `depsReady` to the blocking-dependency set
-/

theorem mem_blockingDeps {s : StepT} {known : List (List Char)}
    {t : List Char} :
    t ∈ blockingDeps s known ↔
      t ∈ extractTags (combinedFields s) ∧ t ∈ known := by
  unfold blockingDeps
  rw [List.mem_filter]
  simp

theorem depsReady_eq_true_iff {s : StepT} {known : List (List Char)}
    {store : List (List Char × List Char)} :
    depsReady s known store = true ↔
      ∀ t ∈ blockingDeps s known, storeGet store t ≠ [] := by
  unfold depsReady
  rw [List.all_eq_true]
  constructor
  · intro h t ht
    obtain ⟨hmem, hknown⟩ := mem_blockingDeps.mp ht
    have := h t hmem
    simp only [Bool.not_eq_true', Bool.and_eq_false_iff] at this
    rcases this with h1 | h2
    · simp [hknown] at h1
    · intro hcontra
      rw [hcontra] at h2
      simp at h2
  · intro h t hmem
    by_cases hknown : t ∈ known
    · have := h t (mem_blockingDeps.mpr ⟨hmem, hknown⟩)
      simp only [Bool.not_eq_true', Bool.and_eq_false_iff]
      right
      simpa [List.isEmpty_iff] using this
    · simp [hknown]

/-!
## Claim C1 — the blocking-dependency set
-/

/-- A step whose prompt references the reserved `clipboard` tag, in a
flow that also contains a step whose identifier is literally
`clipboard`. -/
def c1Step : StepT :=
  { id := "w".toList, type := [], prompt := tagOf clipName,
    filename := [], content := [], ifCond := [], source := [] }

/-- Claim C1, counterexample.  The claim states that the blocking set
always excludes the reserved name `clipboard`.  But `depsReady` keeps
exactly the tags that are in `validIDs`: when a step of the flow is
itself named `clipboard`, the reserved tag is treated as a blocking
dependency (and, the store never mapping it to a non-empty value until
that step publishes, `depsReady` reports the step not ready). -/
theorem c1_counterexample :
    clipName ∈ blockingDeps c1Step [clipName] ∧
      depsReady c1Step [clipName] [] = false := by
  constructor
  · rw [mem_blockingDeps]
    constructor
    · show clipName ∈ extractTags (combinedFields c1Step)
      decide
    · decide
  · decide

/-- Claim C1, amended: for every step `S` and set of known step
identifiers that does not contain the reserved names `clipboard` and
`input`, the blocking-dependency set contains exactly the tag names
occurring in the concatenation of `S`'s templatable fields
(prompt + filename + content + if + source) that are known step
identifiers — hence in particular neither `clipboard` nor `input`, and
no identifier that is not a tag occurrence.  (The original claim fails
when a step is itself named `clipboard` or `input`; and tag occurrences
are matched on the concatenation of the fields, not field by field.) -/
theorem c1_amended (s : StepT) (known : List (List Char)) (t : List Char)
    (hc : clipName ∉ known) (hi : inpName ∉ known) :
    t ∈ blockingDeps s known ↔
      (t ∈ extractTags (combinedFields s) ∧
        t ≠ clipName ∧ t ≠ inpName ∧ t ∈ known) := by
  rw [mem_blockingDeps]
  constructor
  · rintro ⟨hmem, hknown⟩
    refine ⟨hmem, ?_, ?_, hknown⟩
    · rintro rfl; exact hc hknown
    · rintro rfl; exact hi hknown
  · rintro ⟨hmem, _, _, hknown⟩
    exact ⟨hmem, hknown⟩

/-- Step used in the C1 witness: its prompt references step `a`. -/
def c1WitStep : StepT :=
  { id := "w".toList, type := [], prompt := "use ".toList ++ tagOf "a".toList,
    filename := [], content := [], ifCond := [], source := [] }

/-- Witness for `c1_amended` at a concrete step and identifier set. -/
theorem c1_amended_witness :
    "a".toList ∈ blockingDeps c1WitStep ["a".toList] :=
  (c1_amended c1WitStep ["a".toList] "a".toList
    (by decide) (by decide)).mpr (by decide)

/-!
## Properties of the replacement passes
-/

theorem hasSub_cons (pat : List Char) (c : Char) (r : List Char) :
    hasSub pat (c :: r) = (pat.isPrefixOf (c :: r) || hasSub pat r) := rfl

/-- A replacement pass is the identity on text that does not contain
the pattern. -/
theorem replaceAllSub_of_not_hasSub (pat rep : List Char) :
    ∀ s, hasSub pat s = false → replaceAllSub pat rep s = s := by
  intro s
  induction s with
  | nil => intro _; rfl
  | cons c r ih =>
    intro h
    rw [hasSub_cons, Bool.or_eq_false_iff] at h
    rw [replaceAllSub_cons, if_neg, ih h.2]
    intro hcontra
    rw [hcontra.1] at h
    exact absurd h.1 (by simp)

/-- A replacement pass substitutes the replacement text verbatim: the
inserted value is not re-scanned, even when it contains the pattern. -/
theorem replaceAllSub_self (pat rep : List Char) (hne : pat ≠ []) :
    replaceAllSub pat rep pat = rep := by
  match pat, hne with
  | c :: t, _ =>
    rw [replaceAllSub_cons, if_pos]
    · rw [show (c :: t).drop (c :: t).length = [] from List.drop_length _]
      rw [replaceAllSub_nil, List.append_nil]
    · exact ⟨List.isPrefixOf_iff_prefix.mpr (List.prefix_refl _), by simp⟩

/-- Containing a longer pattern implies containing its prefix. -/
theorem hasSub_of_hasSub_append (p q : List Char) :
    ∀ s, hasSub (p ++ q) s = true → hasSub p s = true := by
  intro s
  induction s with
  | nil =>
    intro h
    simp [hasSub, List.isEmpty_iff] at h ⊢
    exact h.1
  | cons c r ih =>
    intro h
    rw [hasSub_cons, Bool.or_eq_true] at h ⊢
    rcases h with h | h
    · left
      have := List.isPrefixOf_iff_prefix.mp h
      exact List.isPrefixOf_iff_prefix.mpr
        ((List.prefix_append p q).trans this)
    · right; exact ih h

/-- A tag for any name contains the tag opener. -/
theorem hasSub_tagOpen_of_hasSub_tagOf (n : List Char) (s : List Char)
    (h : hasSub (tagOf n) s = true) : hasSub tagOpen s = true := by
  have : tagOf n = tagOpen ++ (n ++ [rbrace, rbrace]) := by
    simp [tagOf]
  rw [this] at h
  exact hasSub_of_hasSub_append _ _ s h

/-- Template substitution is the identity on text containing no tag
opener. -/
theorem fillTags_of_no_tagOpen (cb inp : List Char)
    (store : List (List Char × List Char)) (s : List Char)
    (h : hasSub tagOpen s = false) :
    fillTags cb inp store s = s := by
  have hnone : ∀ n : List Char, hasSub (tagOf n) s = false := by
    intro n
    by_contra hcontra
    rw [Bool.not_eq_false] at hcontra
    rw [hasSub_tagOpen_of_hasSub_tagOf n s hcontra] at h
    exact absurd h (by simp)
  unfold fillTags
  simp only [hnone, Bool.false_eq_true, if_false]
  induction store with
  | nil => rfl
  | cons kv rest ih =>
    rw [List.foldl_cons, replaceAllSub_of_not_hasSub _ _ s (hnone kv.1), ih]

/-!
## Claim C4 — no re-scanning of substituted values
-/

/-- Claim C4, counterexample.  The claim states that a tag occurrence
inside a substituted value is never expanded within the same `fillTags`
call.  But `fillTags` is a sequence of `ReplaceAll` passes, and a later
pass re-scans text inserted by an earlier one: with the ambient
clipboard containing the literal text `\x7b\x7binput\x7d\x7d` and CLI
input `X`, filling `\x7b\x7bclipboard\x7d\x7d` first inserts the
clipboard value and then the `input` pass expands the tag inside it,
producing `X` instead of the claimed `\x7b\x7binput\x7d\x7d`. -/
theorem c4_counterexample :
    fillTags (tagOf inpName) "X".toList [] (tagOf clipName) = "X".toList ∧
      "X".toList ≠ tagOf inpName := by
  constructor
  · decide
  · decide

/-- Claim C4, amended: each individual substitution pass is a single
left-to-right scan whose inserted values are not re-scanned by that same
pass; tags are only expanded by the *later* passes of the same call
(`input` after `clipboard`, stored results after both, stored results in
map-iteration order).  In particular, when the store holds a single
result for `name` (a name whose tag does not embed the reserved tags),
filling the tag for `name` returns the stored value verbatim — even if
that value itself contains tags. -/
theorem c4_amended (cb inp : List Char) (name v : List Char)
    (hc : hasSub (tagOf clipName) (tagOf name) = false)
    (hi : hasSub (tagOf inpName) (tagOf name) = false) :
    fillTags cb inp [(name, v)] (tagOf name) = v := by
  unfold fillTags
  simp only [hc, hi, Bool.false_eq_true, if_false, List.foldl_cons,
    List.foldl_nil]
  exact replaceAllSub_self _ _ (by simp [tagOf, tagOpen])

/-- Witness for `c4_amended`: the stored value contains its own tag and
is still returned verbatim, unexpanded. -/
theorem c4_amended_witness :
    fillTags [] [] [("a".toList, tagOf "a".toList ++ "!".toList)]
        (tagOf "a".toList) =
      tagOf "a".toList ++ "!".toList :=
  c4_amended [] [] "a".toList (tagOf "a".toList ++ "!".toList)
    (by decide) (by decide)

/-!
## Claim C5 — idempotence of template substitution
-/

/-- The step whose prompt is the single tag for step `a` (used to state
that all step dependencies of the C5 counterexample text are resolved). -/
def c5Step : StepT :=
  { id := "x".toList, type := [], prompt := tagOf "a".toList,
    filename := [], content := [], ifCond := [], source := [] }

/-- Claim C5, counterexample.  The claim states `fill (fill x) = fill x`
once all of `x`'s step dependencies are resolved.  Take
`x = \x7b\x7ba\x7d\x7d` with step `a`'s published result being the
literal text `\x7b\x7bclipboard\x7d\x7d` and the ambient clipboard `C`:
`a` is resolved in the store (and `depsReady` agrees), the first fill
yields `\x7b\x7bclipboard\x7d\x7d`, but the second fill expands it to
`C`. -/
theorem c5_counterexample :
    depsReady c5Step ["a".toList]
        [("a".toList, tagOf clipName)] = true ∧
      fillTags "C".toList [] [("a".toList, tagOf clipName)]
          (fillTags "C".toList [] [("a".toList, tagOf clipName)]
            (tagOf "a".toList)) ≠
        fillTags "C".toList [] [("a".toList, tagOf clipName)]
          (tagOf "a".toList) := by
  constructor
  · decide
  · decide

/-- Claim C5, amended: template substitution is idempotent on any text
whose first substitution leaves no tag opener — in particular whenever
all tags were resolved and none of the substituted values re-introduced
one.  (The original claim fails when a substituted value itself contains
a tag of an earlier pass, as the counterexample shows.) -/
theorem c5_amended (cb inp : List Char)
    (store : List (List Char × List Char)) (x : List Char)
    (h : hasSub tagOpen (fillTags cb inp store x) = false) :
    fillTags cb inp store (fillTags cb inp store x) =
      fillTags cb inp store x :=
  fillTags_of_no_tagOpen cb inp store _ h

/-- Witness for `c5_amended` at a store whose values are tag-free. -/
theorem c5_amended_witness :
    fillTags "C".toList [] [("a".toList, "AAA".toList)]
        (fillTags "C".toList [] [("a".toList, "AAA".toList)]
          (tagOf "a".toList)) =
      fillTags "C".toList [] [("a".toList, "AAA".toList)]
        (tagOf "a".toList) :=
  c5_amended "C".toList [] [("a".toList, "AAA".toList)]
    (tagOf "a".toList) (by decide)

/-!
## Claim C6 — the conditional evaluator
-/

theorem split2_of_not_hasSub (c1 c2 : Char) :
    ∀ s, hasSub [c1, c2] s = false → split2 c1 c2 s = [s] := by
  intro s
  induction s with
  | nil => intro _; rfl
  | cons a t ih =>
    intro h
    rw [hasSub_cons, Bool.or_eq_false_iff] at h
    match t, ih with
    | [], _ => rfl
    | b :: rest, ih =>
      have hab : ¬(a = c1 ∧ b = c2) := by
        rintro ⟨rfl, rfl⟩
        have hpre : [a, b].isPrefixOf (a :: b :: rest) = true := by
          rw [List.isPrefixOf_iff_prefix]
          exact ⟨rest, rfl⟩
        rw [hpre] at h
        exact absurd h.1 (by simp)
      rw [split2, if_neg hab, ih h.2]

/-- Claim C6: the conditional evaluator.  The four behaviours stated by
the spec hold on the substituted guard; and in general the evaluator
recognizes exactly the operators `!=` and `==` (`!=` first): a guard
containing neither runs; a guard with a single `!=` occurrence runs iff
the whitespace-trimmed left operand differs from the whitespace-trimmed,
quote-stripped right operand, compared as opaque strings; a guard with a
single `==` occurrence (and no `!=`) runs iff they are equal. -/
theorem c6_conditional_evaluator :
    (shouldRunStep [] [] [] "a == a".toList = true ∧
     shouldRunStep [] [] [] "a == b".toList = false ∧
     shouldRunStep [] [] [] "a != b".toList = true ∧
     shouldRunStep [] [] [] [] = true) ∧
    (∀ c, hasSub ['!', '='] c = false → hasSub ['=', '='] c = false →
      evalCond c = true) ∧
    (∀ c l r, split2 '!' '=' c = [l, r] →
      evalCond c =
        if trimSpace l = trimQuotes (trimSpace r) then false else true) ∧
    (∀ c l r, hasSub ['!', '='] c = false → split2 '=' '=' c = [l, r] →
      evalCond c =
        if trimSpace l = trimQuotes (trimSpace r) then true else false) := by
  refine ⟨⟨by decide, by decide, by decide, by decide⟩, ?_, ?_, ?_⟩
  · intro c h1 h2
    unfold evalCond
    rw [h1, h2]
    simp
  · intro c l r hsplit
    have hc : hasSub ['!', '='] c = true := by
      by_contra hcontra
      rw [Bool.not_eq_true] at hcontra
      rw [split2_of_not_hasSub '!' '=' c hcontra] at hsplit
      simp at hsplit
    unfold evalCond
    rw [hc, if_pos rfl, hsplit]
  · intro c l r h1 hsplit
    have hc : hasSub ['=', '='] c = true := by
      by_contra hcontra
      rw [Bool.not_eq_true] at hcontra
      rw [split2_of_not_hasSub '=' '=' c hcontra] at hsplit
      simp at hsplit
    unfold evalCond
    rw [h1, hc, hsplit]
    simp

/-- Witness for `c6_conditional_evaluator`: its general `==` clause
instantiated at the guard `a == b`. -/
theorem c6_witness :
    evalCond "a == b".toList =
      if trimSpace "a ".toList = trimQuotes (trimSpace " b".toList)
      then true else false :=
  c6_conditional_evaluator.2.2.2 "a == b".toList "a ".toList " b".toList
    (by decide) (by decide)

/-!
## The concurrent scheduler as a transition system

`runFlow` starts one goroutine per step.  Each goroutine busy-waits on
`depsReady`, computes its result (the type-specific executor, collapsed
here to an oracle `exec` that may read the store snapshot), and then
either publishes a non-empty result to the shared map under the mutex,
or — on an empty result — calls `os.Exit(1)`, which instantly terminates
the whole process.  Interleaved execution is modelled as a small-step
transition relation on scheduler states; `os.Exit` is modelled by the
`exitCode` field becoming `some 1`, after which no rule applies.
-/

/-- The lifecycle of one step's goroutine: not yet past the dependency
wait; result computed but not yet published; published. -/
inductive StepStatus where
  | pending : StepStatus
  | running : List Char → StepStatus
  | done : StepStatus
deriving DecidableEq

/-- A scheduler state: the shared results map, each goroutine's status
(indexed like `conf.Steps`), and the process exit code (`none` while the
process is alive). -/
structure FlowState where
  store : List (List Char × List Char)
  status : List StepStatus
  exitCode : Option Nat
deriving DecidableEq

/-- The initial state of `runFlow`: empty results map, every goroutine
before its dependency wait, process alive. -/
def initState (conf : List StepT) : FlowState :=
  { store := [], status := List.replicate conf.length StepStatus.pending,
    exitCode := none }

/-- The interleaving semantics of `runFlow`.  `exec i snapshot` is the
result the step executor produces for step `i` against the given store
snapshot (provider calls, human input, file contents — all external).
`start` is the goroutine passing its `depsReady` busy-wait and computing
its result; `publish` is the locked write `results[s.ID] = res` for a
non-empty result; `fail` is `os.Exit(1)` on an empty result.  Every rule
requires the process to still be alive, and no rule applies after
`fail`: `os.Exit` terminates every goroutine at once. -/
inductive FlowStep (conf : List StepT)
    (exec : Nat → List (List Char × List Char) → List Char) :
    FlowState → FlowState → Prop where
  | start (st : FlowState) (i : Nat) (hi : i < conf.length)
      (hexit : st.exitCode = none)
      (hpend : st.status.get? i = some StepStatus.pending)
      (hdeps : depsReady (conf.get ⟨i, hi⟩) (conf.map (·.id)) st.store = true) :
      FlowStep conf exec st
        { st with status := st.status.set i (StepStatus.running (exec i st.store)) }
  | publish (st : FlowState) (i : Nat) (hi : i < conf.length) (r : List Char)
      (hexit : st.exitCode = none)
      (hrun : st.status.get? i = some (StepStatus.running r))
      (hne : r ≠ []) :
      FlowStep conf exec st
        { store := ((conf.get ⟨i, hi⟩).id, r) :: st.store,
          status := st.status.set i StepStatus.done,
          exitCode := none }
  | fail (st : FlowState) (i : Nat)
      (hexit : st.exitCode = none)
      (hrun : st.status.get? i = some (StepStatus.running [])) :
      FlowStep conf exec st { st with exitCode := some 1 }

/-- Finitely many interleaved scheduler steps. -/
def FlowSteps (conf : List StepT)
    (exec : Nat → List (List Char × List Char) → List Char) :
    FlowState → FlowState → Prop :=
  Relation.ReflTransGen (FlowStep conf exec)

/-- A state the scheduler can actually reach from flow start. -/
def ReachableState (conf : List StepT)
    (exec : Nat → List (List Char × List Char) → List Char)
    (st : FlowState) : Prop :=
  FlowSteps conf exec (initState conf) st

theorem FlowStep.exitCode_none {conf exec} {st st' : FlowState}
    (h : FlowStep conf exec st st') : st.exitCode = none := by
  cases h with
  | start _ _ hexit _ _ => exact hexit
  | publish _ _ _ hexit _ _ => exact hexit
  | fail _ hexit _ => exact hexit

theorem storeGet_cons (k v key : List Char)
    (rest : List (List Char × List Char)) :
    storeGet ((k, v) :: rest) key =
      if k = key then v else storeGet rest key := rfl

theorem storeGet_ne_of_mem :
    ∀ (store : List (List Char × List Char)) (k v : List Char),
      (∀ p ∈ store, p.2 ≠ []) → (k, v) ∈ store → storeGet store k ≠ [] := by
  intro store
  induction store with
  | nil => intro k v _ hmem; simp at hmem
  | cons p rest ih =>
    intro k v hall hmem
    obtain ⟨k2, v2⟩ := p
    rw [storeGet_cons]
    by_cases hk : k2 = k
    · rw [if_pos hk]
      exact hall (k2, v2) (by simp)
    · rw [if_neg hk]
      rcases List.mem_cons.mp hmem with heq | hmem2
      · cases heq; exact absurd rfl hk
      · exact ih k v (fun q hq => hall q (List.mem_cons_of_mem _ hq)) hmem2

/-- Publication only adds a non-empty value, so a tag already readable
as non-empty stays non-empty. -/
theorem storeGet_publish_ne (idv r : List Char)
    (store : List (List Char × List Char)) (t : List Char)
    (hne : r ≠ []) (h : storeGet store t ≠ []) :
    storeGet ((idv, r) :: store) t ≠ [] := by
  rw [storeGet_cons]
  by_cases hid : idv = t
  · rw [if_pos hid]; exact hne
  · rw [if_neg hid]; exact h

/-- The scheduler's global invariant: every published value is
non-empty; the status vector matches the flow; every non-empty readable
tag was published by a finished step of that identifier; and a step past
its dependency wait has all of its blocking dependencies readable. -/
def SchedInv (conf : List StepT) (st : FlowState) : Prop :=
  (∀ p ∈ st.store, p.2 ≠ []) ∧
  st.status.length = conf.length ∧
  (∀ k : List Char, storeGet st.store k ≠ [] →
    ∃ j, ∃ hj : j < conf.length, (conf.get ⟨j, hj⟩).id = k ∧
      st.status.get? j = some StepStatus.done) ∧
  (∀ j (hj : j < conf.length),
    st.status.get? j ≠ some StepStatus.pending →
    ∀ t ∈ blockingDeps (conf.get ⟨j, hj⟩) (conf.map (·.id)),
      storeGet st.store t ≠ [])

theorem schedInv_init (conf : List StepT) : SchedInv conf (initState conf) := by
  refine ⟨?_, ?_, ?_, ?_⟩
  · intro p hp; simp [initState] at hp
  · simp [initState]
  · intro k hk; simp [initState, storeGet] at hk
  · intro j hj hnp t _
    exact absurd (by
      show (List.replicate conf.length StepStatus.pending).get? j = _
      rw [List.get?_eq_get (by simpa using hj), List.get_replicate]) hnp

theorem schedInv_step {conf : List StepT}
    {exec : Nat → List (List Char × List Char) → List Char}
    {st st' : FlowState}
    (hinv : SchedInv conf st) (h : FlowStep conf exec st st') :
    SchedInv conf st' := by
  obtain ⟨hstore, hlen, hdone, hdeps⟩ := hinv
  cases h with
  | start i hi hexit hpend hrdy =>
    refine ⟨hstore, by simpa [List.length_set] using hlen, ?_, ?_⟩
    · intro k hk
      obtain ⟨j, hj, hid, hst⟩ := hdone k hk
      have hji : j ≠ i := by
        intro heq; subst heq
        rw [hst] at hpend; simp at hpend
      refine ⟨j, hj, hid, ?_⟩
      rw [List.get?_set_ne _ _ (fun he => hji he.symm)]
      exact hst
    · intro j hj hnp t ht
      by_cases hji : j = i
      · subst hji
        exact (depsReady_eq_true_iff.mp hrdy) t ht
      · have hold : st.status.get? j ≠ some StepStatus.pending := by
          rw [List.get?_set_ne _ _ (fun he => hji he.symm)] at hnp
          exact hnp
        exact hdeps j hj hold t ht
  | publish i hi r hexit hrun hne =>
    refine ⟨?_, by simpa [List.length_set] using hlen, ?_, ?_⟩
    · intro p hp
      rcases List.mem_cons.mp hp with heq | hp2
      · rw [heq]; exact hne
      · exact hstore p hp2
    · intro k hk
      by_cases hid : (conf.get ⟨i, hi⟩).id = k
      · refine ⟨i, hi, hid, ?_⟩
        rw [List.get?_set_eq, hrun]
        rfl
      · have hold : storeGet st.store k ≠ [] := by
          rw [storeGet_cons, if_neg hid] at hk; exact hk
        obtain ⟨j, hj, hidj, hstj⟩ := hdone k hold
        have hji : j ≠ i := by
          intro heq; subst heq
          rw [hstj] at hrun; simp at hrun
        refine ⟨j, hj, hidj, ?_⟩
        rw [List.get?_set_ne _ _ (fun he => hji he.symm)]
        exact hstj
    · intro j hj hnp t ht
      by_cases hji : j = i
      · subst hji
        have hold : st.status.get? j ≠ some StepStatus.pending := by
          rw [hrun]; simp
        exact storeGet_publish_ne _ _ _ _ hne (hdeps j hj hold t ht)
      · have hold : st.status.get? j ≠ some StepStatus.pending := by
          rw [List.get?_set_ne _ _ (fun he => hji he.symm)] at hnp
          exact hnp
        exact storeGet_publish_ne _ _ _ _ hne (hdeps j hj hold t ht)
  | fail i hexit hrun =>
    exact ⟨hstore, hlen, hdone, hdeps⟩

theorem schedInv_reachable {conf : List StepT}
    {exec : Nat → List (List Char × List Char) → List Char}
    {st : FlowState} (h : ReachableState conf exec st) :
    SchedInv conf st := by
  unfold ReachableState FlowSteps at h
  induction h with
  | refl => exact schedInv_init conf
  | tail hsteps hstep ih => exact schedInv_step ih hstep

/-!
## Claims C2, C3, C10 — failure propagation, dependency ordering, and
the store invariant
-/

/-- Claim C2: a step whose executor produced the empty string makes the
whole flow terminate with the non-zero exit status 1 (first conjunct:
the `os.Exit(1)` transition applies, publishes nothing, and its exit
status differs from 0), and from any state in which the process has
exited no scheduler step occurs at all — in particular no step still
pending completes and no further result reaches the Result Store
(second conjunct). -/
theorem c2_empty_result_terminates :
    (∀ (conf : List StepT)
       (exec : Nat → List (List Char × List Char) → List Char)
       (st : FlowState) (i : Nat),
       st.exitCode = none →
       st.status.get? i = some (StepStatus.running []) →
       FlowStep conf exec st { st with exitCode := some 1 } ∧
         ({ st with exitCode := some 1 } : FlowState).store = st.store ∧
         (some 1 : Option Nat) ≠ some 0) ∧
    (∀ (conf : List StepT)
       (exec : Nat → List (List Char × List Char) → List Char)
       (st st2 : FlowState),
       FlowSteps conf exec st st2 → st.exitCode ≠ none → st2 = st) := by
  constructor
  · intro conf exec st i hexit hrun
    exact ⟨FlowStep.fail st i hexit hrun, rfl, by simp⟩
  · intro conf exec st st2 h hne
    rcases Relation.ReflTransGen.cases_head h with heq | ⟨c, hstep, _⟩
    · exact heq.symm
    · exact absurd hstep.exitCode_none hne

/-- The `hi` step of the spec's three-step example flow. -/
def stepHi : StepT :=
  { id := "A".toList, type := [], prompt := "hi".toList,
    filename := [], content := [], ifCond := [], source := [] }

/-- Step `B` of the example flow: prompt `use \x7b\x7bA\x7d\x7d`. -/
def stepB : StepT :=
  { id := "B".toList, type := [],
    prompt := "use ".toList ++ tagOf "A".toList,
    filename := [], content := [], ifCond := [], source := [] }

/-- Step `C` of the example flow: prompt `use \x7b\x7bA\x7d\x7d`. -/
def stepC : StepT :=
  { id := "C".toList, type := [],
    prompt := "use ".toList ++ tagOf "A".toList,
    filename := [], content := [], ifCond := [], source := [] }

/-- The example flow `[A, B, C]` from the spec. -/
def conf3 : List StepT := [stepHi, stepB, stepC]

/-- An executor oracle producing the non-empty result `r` everywhere. -/
def exec3 : Nat → List (List Char × List Char) → List Char :=
  fun _ _ => "r".toList

/-- A state with the single step's executor returning empty. -/
def c2WitState : FlowState :=
  { store := [], status := [StepStatus.running []], exitCode := none }

/-- Witness for `c2_empty_result_terminates` at a one-step flow whose
step computed the empty result. -/
theorem c2_witness :
    FlowStep [stepHi] exec3 c2WitState
        { c2WitState with exitCode := some 1 } ∧
      ({ c2WitState with exitCode := some 1 } : FlowState).store =
        c2WitState.store ∧
      (some 1 : Option Nat) ≠ some 0 :=
  c2_empty_result_terminates.1 [stepHi] exec3 c2WitState 0 rfl rfl

/-- Claim C10: in every reachable scheduler state, every value in the
Result Store is non-empty (a step with an empty result exits the process
before the store write), so the `results[tag] == ""` test of `depsReady`
never misclassifies a published result as absent: any published key
reads back non-empty. -/
theorem c10_store_values_nonempty :
    ∀ (conf : List StepT)
      (exec : Nat → List (List Char × List Char) → List Char)
      (st : FlowState), ReachableState conf exec st →
      (∀ p ∈ st.store, p.2 ≠ []) ∧
      (∀ k v, (k, v) ∈ st.store → storeGet st.store k ≠ []) := by
  intro conf exec st h
  have hinv := schedInv_reachable h
  exact ⟨hinv.1, fun k v hm => storeGet_ne_of_mem st.store k v hinv.1 hm⟩

/-- Witness for `c10_store_values_nonempty`: a one-step flow run to
completion; the published result reads back non-empty. -/
theorem c10_witness :
    storeGet [("A".toList, "r".toList)] "A".toList ≠ [] :=
  (c10_store_values_nonempty [stepHi] exec3
      { store := [("A".toList, "r".toList)],
        status := [StepStatus.done], exitCode := none }
      (Relation.ReflTransGen.head
        (FlowStep.start (initState [stepHi]) 0 (by decide) rfl rfl (by decide))
        (Relation.ReflTransGen.head
          (FlowStep.publish _ 0 (by decide) "r".toList rfl rfl (by decide))
          Relation.ReflTransGen.refl))).2
    "A".toList "r".toList (by decide)

/-- Claim C3: (first conjunct) in every flow with distinct step ids, if
step `b`'s templatable fields contain the tag of step `a`'s id, then in
every reachable state in which `b` is past its dependency wait (has
begun executing), `a` has published: `a`'s task is done and its result
reads back non-empty from the Result Store — so `b` never observes a
missing result of `a`.  (Second conjunct) no ordering is imposed between
two such readers: in the spec's flow `[A, B(use A), C(use A)]` both an
execution where `B` finishes while `C` has not started and one where `C`
finishes while `B` has not started are reachable. -/
theorem c3_dependency_ordering :
    (∀ (conf : List StepT)
       (exec : Nat → List (List Char × List Char) → List Char)
       (ia ib : Nat) (hia : ia < conf.length) (hib : ib < conf.length),
       (conf.map (·.id)).Nodup →
       (conf.get ⟨ia, hia⟩).id ∈
         extractTags (combinedFields (conf.get ⟨ib, hib⟩)) →
       ∀ st, ReachableState conf exec st →
         st.status.get? ib ≠ some StepStatus.pending →
         st.status.get? ia = some StepStatus.done ∧
           storeGet st.store (conf.get ⟨ia, hia⟩).id ≠ []) ∧
    (∃ st st2 : FlowState,
       ReachableState conf3 exec3 st ∧
       st.status.get? 1 = some StepStatus.done ∧
       st.status.get? 2 = some StepStatus.pending ∧
       ReachableState conf3 exec3 st2 ∧
       st2.status.get? 2 = some StepStatus.done ∧
       st2.status.get? 1 = some StepStatus.pending) := by
  constructor
  · intro conf exec ia ib hia hib hnodup htag st hreach hnp
    obtain ⟨hstore, hlen, hdone, hdeps⟩ := schedInv_reachable hreach
    have haid : (conf.get ⟨ia, hia⟩).id ∈ conf.map (·.id) :=
      List.mem_map.mpr ⟨conf.get ⟨ia, hia⟩, List.get_mem conf ia hia, rfl⟩
    have hget : storeGet st.store (conf.get ⟨ia, hia⟩).id ≠ [] :=
      hdeps ib hib hnp _ (mem_blockingDeps.mpr ⟨htag, haid⟩)
    obtain ⟨j, hj, hid, hst⟩ := hdone _ hget
    have hfin : (⟨j, by simpa using hj⟩ : Fin (conf.map (·.id)).length) =
        ⟨ia, by simpa using hia⟩ := by
      apply hnodup.get_inj_iff.mp
      rw [List.get_map, List.get_map]
      exact hid
    have hj_eq : j = ia := by simpa using congrArg Fin.val hfin
    subst hj_eq
    exact ⟨hst, hget⟩
  · refine ⟨{ store := [("B".toList, "r".toList), ("A".toList, "r".toList)],
              status := [StepStatus.done, StepStatus.done, StepStatus.pending],
              exitCode := none },
            { store := [("C".toList, "r".toList), ("A".toList, "r".toList)],
              status := [StepStatus.done, StepStatus.pending, StepStatus.done],
              exitCode := none },
            ?_, rfl, rfl, ?_, rfl, rfl⟩
    · exact Relation.ReflTransGen.head
        (FlowStep.start (initState conf3) 0 (by decide) rfl rfl (by decide))
        (Relation.ReflTransGen.head
          (FlowStep.publish _ 0 (by decide) "r".toList rfl rfl (by decide))
          (Relation.ReflTransGen.head
            (FlowStep.start _ 1 (by decide) rfl rfl (by decide))
            (Relation.ReflTransGen.head
              (FlowStep.publish _ 1 (by decide) "r".toList rfl rfl (by decide))
              Relation.ReflTransGen.refl)))
    · exact Relation.ReflTransGen.head
        (FlowStep.start (initState conf3) 0 (by decide) rfl rfl (by decide))
        (Relation.ReflTransGen.head
          (FlowStep.publish _ 0 (by decide) "r".toList rfl rfl (by decide))
          (Relation.ReflTransGen.head
            (FlowStep.start _ 2 (by decide) rfl rfl (by decide))
            (Relation.ReflTransGen.head
              (FlowStep.publish _ 2 (by decide) "r".toList rfl rfl (by decide))
              Relation.ReflTransGen.refl)))

/-- Witness for `c3_dependency_ordering`: in the example flow, with `B`
past its dependency wait, `A` is done and its result is readable. -/
theorem c3_witness :
    ({ store := [("B".toList, "r".toList), ("A".toList, "r".toList)],
       status := [StepStatus.done, StepStatus.done, StepStatus.pending],
       exitCode := none } : FlowState).status.get? 0 =
        some StepStatus.done ∧
      storeGet [("B".toList, "r".toList), ("A".toList, "r".toList)]
          "A".toList ≠ [] := by
  exact c3_dependency_ordering.1 conf3 exec3 0 1 (by decide) (by decide)
    (by decide) (by decide)
    { store := [("B".toList, "r".toList), ("A".toList, "r".toList)],
      status := [StepStatus.done, StepStatus.done, StepStatus.pending],
      exitCode := none }
    (Relation.ReflTransGen.head
      (FlowStep.start (initState conf3) 0 (by decide) rfl rfl (by decide))
      (Relation.ReflTransGen.head
        (FlowStep.publish _ 0 (by decide) "r".toList rfl rfl (by decide))
        (Relation.ReflTransGen.head
          (FlowStep.start _ 1 (by decide) rfl rfl (by decide))
          (Relation.ReflTransGen.head
            (FlowStep.publish _ 1 (by decide) "r".toList rfl rfl (by decide))
            Relation.ReflTransGen.refl))))
    (by decide)

/-!
## The step-executor dispatch (`runFlow`'s per-type branches)

Translated from the `if s.Type == ...` chain of the current `runFlow`.
External interactions (generation provider, human input, selector file
contents, tool invocation) are oracles supplied in an environment; the
filesystem side effects of the `file_write` branch are recorded as an
explicit effect list.  The inline guard block is `shouldRunStep` above;
in the source it appears, verbatim and identically, in the `file_write`,
`mcp` and default (`text`) branches only — the `interaction`,
`flow_editor` and `selector` branches never consult the `If` field.
-/

/-- A recorded filesystem side effect (`os.MkdirAll` / `os.WriteFile`). -/
inductive FsOp where
  | mkdirAll : List Char → FsOp
  | writeFile : List Char → List Char → FsOp
deriving DecidableEq

/-- The outcome of one step dispatch: the result string, the filesystem
effects performed, and whether the type-specific executor ran (as
opposed to the step being skipped by its guard). -/
structure StepOutcome where
  res : List Char
  fs : List FsOp
  executed : Bool
deriving DecidableEq

/-- The ambient environment of a dispatch: clipboard, CLI input, store
snapshot, and one oracle per external capability; `fsOk` tells whether
`os.WriteFile` succeeds. -/
structure ExecEnv where
  cb : List Char
  inp : List Char
  store : List (List Char × List Char)
  gen : List Char → List Char
  interact : StepT → List Char
  editor : StepT → List Char
  select : StepT → List Char
  mcpCall : StepT → List Char
  home : List Char
  fsOk : Bool

/-- The literal sentinel result of a guard-skipped step. -/
def skipSentinel : List Char := "Skipped (Condition met)".toList

/-- Go `strings.TrimPrefix`. -/
def trimPreGo (pre s : List Char) : List Char :=
  if pre.isPrefixOf s then s.drop pre.length else s

/-- Go `strings.TrimSuffix`. -/
def trimSufGo (suf s : List Char) : List Char :=
  if suf.isSuffixOf s then s.take (s.length - suf.length) else s

/-- `cleanMarkdown` from `main.go`: strip a surrounding markdown code
fence (with or without the `json` language marker) and trim. -/
def cleanMarkdown (d : List Char) : List Char :=
  let t := trimSpace d
  if ("```json".toList).isPrefixOf t then
    trimSpace (trimSufGo "```".toList (trimPreGo "```json".toList t))
  else if ("```".toList).isPrefixOf t then
    trimSpace (trimSufGo "```".toList (trimPreGo "```".toList t))
  else
    trimSpace t

/-- Simplified model of Go `filepath.Dir`: the text before the last path
separator (`.` when there is none, `/` for a root child); `filepath`'s
path cleaning is omitted — no claim depends on the directory value. -/
def dirOf (p : List Char) : List Char :=
  let pre := (p.reverse.dropWhile (· ≠ '/')).reverse
  if pre = [] then ".".toList
  else if pre = ['/'] then ['/']
  else pre.dropLast

/-- The per-type dispatch of `runFlow` for one step: which branch runs,
whether its guard is consulted, the produced result, and the filesystem
effects.  Branch order and guard placement follow the source. -/
def runStepExec (env : ExecEnv) (s : StepT) : StepOutcome :=
  if s.type = "interaction".toList then
    { res := env.interact s, fs := [], executed := true }
  else if s.type = "flow_editor".toList then
    { res := env.editor s, fs := [], executed := true }
  else if s.type = "selector".toList then
    { res := env.select s, fs := [], executed := true }
  else if s.type = "file_write".toList then
    if shouldRunStep env.cb env.inp env.store s.ifCond then
      let fname0 := fillTags env.cb env.inp env.store s.filename
      let content0 := fillTags env.cb env.inp env.store s.content
      let content1 := if (".json".toList).isSuffixOf fname0
                      then cleanMarkdown content0 else content0
      let fname1 := if ("~/".toList).isPrefixOf fname0
                    then env.home ++ '/' :: fname0.drop 2 else fname0
      { res := if env.fsOk then "File saved to ".toList ++ fname1
               else "Error writing file: ".toList ++ fname1,
        fs := [FsOp.mkdirAll (dirOf fname1), FsOp.writeFile fname1 content1],
        executed := true }
    else
      { res := skipSentinel, fs := [], executed := false }
  else if s.type = "mcp".toList then
    if shouldRunStep env.cb env.inp env.store s.ifCond then
      { res := env.mcpCall s, fs := [], executed := true }
    else
      { res := skipSentinel, fs := [], executed := false }
  else
    if shouldRunStep env.cb env.inp env.store s.ifCond then
      { res := env.gen (fillTags env.cb env.inp env.store s.prompt),
        fs := [], executed := true }
    else
      { res := skipSentinel, fs := [], executed := false }

/-- A concrete oracle environment for the dispatch examples. -/
def envX : ExecEnv :=
  { cb := [], inp := [], store := [], gen := fun _ => "GEN".toList,
    interact := fun _ => "CHAT".toList, editor := fun _ => "EDIT".toList,
    select := fun _ => "FILE".toList, mcpCall := fun _ => "TOOL".toList,
    home := [], fsOk := true }

/-- A selector step with an if-guard that evaluates to false. -/
def c7Step : StepT :=
  { id := "s".toList, type := "selector".toList, prompt := [],
    filename := [], content := [], ifCond := "a == b".toList,
    source := "./d".toList }

/-- Claim C7, counterexample.  The claim states that every step type
skips when its guard is false.  But the `selector` branch (like
`interaction` and `flow_editor`) never consults the `If` field: a
selector step whose guard `a == b` evaluates to false still executes,
and its result is the selected file's contents, not the skip
sentinel. -/
theorem c7_counterexample :
    shouldRunStep envX.cb envX.inp envX.store c7Step.ifCond = false ∧
    (runStepExec envX c7Step).executed = true ∧
    (runStepExec envX c7Step).res ≠ skipSentinel := by
  refine ⟨by decide, by decide, by decide⟩

/-- Claim C7, amended: for every step whose type is not `interaction`,
`flow_editor` or `selector` — i.e. for `file_write`, `tool` (`mcp`) and
the default `text` dispatch — a false guard suppresses the type-specific
execution, performs no filesystem effect, and yields exactly the skip
sentinel.  `interaction`, `flow_editor` and `selector` steps ignore
their guard entirely. -/
theorem c7_amended (env : ExecEnv) (s : StepT)
    (h1 : s.type ≠ "interaction".toList)
    (h2 : s.type ≠ "flow_editor".toList)
    (h3 : s.type ≠ "selector".toList)
    (hg : shouldRunStep env.cb env.inp env.store s.ifCond = false) :
    runStepExec env s =
      { res := skipSentinel, fs := [], executed := false } := by
  unfold runStepExec
  rw [if_neg h1, if_neg h2, if_neg h3]
  by_cases h4 : s.type = "file_write".toList
  · rw [if_pos h4]
    simp only [hg, Bool.false_eq_true, if_false]
  · rw [if_neg h4]
    by_cases h5 : s.type = "mcp".toList
    · rw [if_pos h5]
      simp only [hg, Bool.false_eq_true, if_false]
    · rw [if_neg h5]
      simp only [hg, Bool.false_eq_true, if_false]

/-- A text (default-type) step with a false guard. -/
def c7WitStep : StepT :=
  { id := "t".toList, type := [], prompt := "p".toList,
    filename := [], content := [], ifCond := "a == b".toList,
    source := [] }

/-- Witness for `c7_amended` at a concrete text step. -/
theorem c7_amended_witness :
    runStepExec envX c7WitStep =
      { res := skipSentinel, fs := [], executed := false } :=
  c7_amended envX c7WitStep (by decide) (by decide) (by decide) (by decide)

/-- Claim C8: a `file_write` step whose guard evaluates to false
performs no filesystem operation at all — no directory creation, no file
write — and its result is exactly the literal skip sentinel. -/
theorem c8_file_write_skip (env : ExecEnv) (s : StepT)
    (ht : s.type = "file_write".toList)
    (hg : shouldRunStep env.cb env.inp env.store s.ifCond = false) :
    (runStepExec env s).fs = [] ∧
      (runStepExec env s).res = skipSentinel := by
  have hout : runStepExec env s =
      { res := skipSentinel, fs := [], executed := false } := by
    unfold runStepExec
    rw [ht, if_neg (by decide), if_neg (by decide), if_neg (by decide),
      if_pos rfl]
    simp only [hg, Bool.false_eq_true, if_false]
  rw [hout]
  exact ⟨rfl, rfl⟩

/-- A `file_write` step with a false guard. -/
def c8WitStep : StepT :=
  { id := "f".toList, type := "file_write".toList, prompt := [],
    filename := "out.txt".toList, content := "body".toList,
    ifCond := "a == b".toList, source := [] }

/-- Witness for `c8_file_write_skip` at a concrete `file_write` step. -/
theorem c8_witness :
    (runStepExec envX c8WitStep).fs = [] ∧
      (runStepExec envX c8WitStep).res = skipSentinel :=
  c8_file_write_skip envX c8WitStep rfl (by decide)

/-!
## The multi-turn interaction loop (Claim C9)

Translated from the `interaction` branch of `runFlow` (`MaxTurns ≠ 1`):
seed the history with the filled prompt as a model turn when non-empty,
then loop on human inputs; the reserved token `__END_INTERACTION__`
breaks the loop; any other input is appended as a user turn, the chat
provider is invoked (returning the reply text and any tool-call turns it
recorded), and the turns are appended.  The result is the history
rendered as `User:`/`AI:` lines with placeholders for tool turns.
Human input arrives over a channel; it is modelled as a script (list) of
inputs, and a loop that exhausts the script without meeting the end
token — which in the source blocks forever on the channel — is `none`.
Each message's first part is modelled (the render only reads
`msg.Parts[0]`). -/

/-- One part of a chat message: plain text, or a recorded tool
call/result (rendered as placeholder markers). -/
inductive ChatPart where
  | text : List Char → ChatPart
  | toolCall : ChatPart
  | toolResult : ChatPart
deriving DecidableEq

/-- A chat message: a role and its (first) part. -/
structure ChatMsg where
  role : List Char
  part : ChatPart
deriving DecidableEq

/-- The reserved end-of-interaction token. -/
def endToken : List Char := "__END_INTERACTION__".toList

/-- One rendered transcript line: `User: ...` or `AI: ...`, tool turns
as `[Tool Call]` / `[Tool Result]`. -/
def lineOf (m : ChatMsg) : List Char :=
  (if m.role = "model".toList then "AI".toList else "User".toList) ++
    ": ".toList ++
    (match m.part with
     | ChatPart.text t => t
     | ChatPart.toolCall => "[Tool Call]".toList
     | ChatPart.toolResult => "[Tool Result]".toList) ++
    ['\n']

/-- The transcript serialization of the interaction history. -/
def render (hist : List ChatMsg) : List Char :=
  (hist.map lineOf).join

/-- The interaction loop over a script of human inputs.  `ai history`
returns the provider's reply text and the tool-call turns it appended.
`none` models a script exhausted before the end token (the source would
keep blocking on the input channel). -/
def interactRun (ai : List ChatMsg → List Char × List ChatMsg) :
    List ChatMsg → List (List Char) → Option (List ChatMsg)
  | _, [] => none
  | hist, u :: rest =>
    if u = endToken then some hist
    else
      let hist2 := hist ++ [⟨"user".toList, ChatPart.text u⟩]
      let out := ai hist2
      interactRun ai
        (hist2 ++ out.2 ++ [⟨"model".toList, ChatPart.text out.1⟩]) rest

/-- The seeded history: the filled prompt as an initial model turn when
non-empty. -/
def seedHist (filledPrompt : List Char) : List ChatMsg :=
  if filledPrompt = [] then []
  else [⟨"model".toList, ChatPart.text filledPrompt⟩]

/-- The result of a multi-turn interaction step on a script of inputs:
the rendered transcript of the loop's final history. -/
def interactionResult (ai : List ChatMsg → List Char × List ChatMsg)
    (filledPrompt : List Char) (inputs : List (List Char)) :
    Option (List Char) :=
  (interactRun ai (seedHist filledPrompt) inputs).map render

/-- The step-failure check of `runFlow` (`if res == "" { ...
os.Exit(1) }`): the process exit code a result value causes. -/
def failExitCode (res : List Char) : Option Nat :=
  if res = [] then some 1 else none

/-- A concrete chat-provider oracle. -/
def aiEcho : List ChatMsg → List Char × List ChatMsg :=
  fun _ => ("ok".toList, [])

/-- Claim C9, counterexample.  The claim states the end token never
terminates the whole flow.  But when the filled prompt is empty and the
very first input is the end token, the loop ends with an empty history,
the rendered transcript is the empty string, and the empty-result
failure rule then terminates the whole flow with exit status 1. -/
theorem c9_counterexample :
    interactionResult aiEcho [] [endToken] = some [] ∧
      failExitCode [] = some 1 := by
  exact ⟨rfl, rfl⟩

theorem interactRun_length (ai : List ChatMsg → List Char × List ChatMsg) :
    ∀ (inputs : List (List Char)) (hist hist2 : List ChatMsg),
      interactRun ai hist inputs = some hist2 →
      hist.length ≤ hist2.length := by
  intro inputs
  induction inputs with
  | nil => intro hist hist2 h; simp [interactRun] at h
  | cons u rest ih =>
    intro hist hist2 h
    rw [interactRun] at h
    by_cases hu : u = endToken
    · rw [if_pos hu] at h
      cases h
      exact le_rfl
    · rw [if_neg hu] at h
      have := ih _ _ h
      simp only [List.length_append] at this
      omega

theorem interactRun_stops_at_end
    (ai : List ChatMsg → List Char × List ChatMsg) :
    ∀ (pre : List (List Char)) (post : List (List Char))
      (hist : List ChatMsg), endToken ∉ pre →
      interactRun ai hist (pre ++ endToken :: post) =
        interactRun ai hist (pre ++ [endToken]) := by
  intro pre
  induction pre with
  | nil =>
    intro post hist _
    simp only [List.nil_append]
    rw [interactRun, interactRun, if_pos rfl, if_pos rfl]
  | cons u rest ih =>
    intro post hist hmem
    have hu : u ≠ endToken := fun he => hmem (he ▸ List.mem_cons_self u rest)
    simp only [List.cons_append]
    rw [interactRun, interactRun, if_neg hu, if_neg hu]
    exact ih post _ (fun hm => hmem (List.mem_cons_of_mem _ hm))

theorem interactRun_end_some
    (ai : List ChatMsg → List Char × List ChatMsg) :
    ∀ (pre : List (List Char)) (post : List (List Char))
      (hist : List ChatMsg), endToken ∉ pre →
      ∃ h2, interactRun ai hist (pre ++ endToken :: post) = some h2 ∧
        (pre ≠ [] → hist.length < h2.length) := by
  intro pre
  induction pre with
  | nil =>
    intro post hist _
    refine ⟨hist, ?_, by simp⟩
    simp only [List.nil_append]
    rw [interactRun, if_pos rfl]
  | cons u rest ih =>
    intro post hist hmem
    have hu : u ≠ endToken := fun he => hmem (he ▸ List.mem_cons_self u rest)
    obtain ⟨h2, heq, _⟩ := ih post
      ((hist ++ [⟨"user".toList, ChatPart.text u⟩]) ++ (ai (hist ++ [⟨"user".toList, ChatPart.text u⟩])).2 ++
        [⟨"model".toList, ChatPart.text (ai (hist ++ [⟨"user".toList, ChatPart.text u⟩])).1⟩])
      (fun hm => hmem (List.mem_cons_of_mem _ hm))
    refine ⟨h2, ?_, ?_⟩
    · simp only [List.cons_append]
      rw [interactRun, if_neg hu]
      exact heq
    · intro _
      have hmono := interactRun_length ai _ _ _ heq
      simp only [List.length_append, List.length_cons, List.length_nil]
        at hmono
      omega

theorem lineOf_ne_nil (m : ChatMsg) : lineOf m ≠ [] := by
  unfold lineOf
  intro hc
  rw [List.append_eq_nil] at hc
  obtain ⟨hc1, _⟩ := hc
  rw [List.append_eq_nil] at hc1
  obtain ⟨hc2, _⟩ := hc1
  rw [List.append_eq_nil] at hc2
  obtain ⟨hc3, _⟩ := hc2
  by_cases h : m.role = "model".toList
  · rw [if_pos h] at hc3; exact absurd hc3 (by decide)
  · rw [if_neg h] at hc3; exact absurd hc3 (by decide)

theorem render_ne_nil (hist : List ChatMsg) (h : hist ≠ []) :
    render hist ≠ [] := by
  match hist, h with
  | m :: t, _ =>
    show lineOf m ++ render t ≠ []
    intro hc
    rw [List.append_eq_nil] at hc
    exact lineOf_ne_nil m hc.1

/-- Claim C9, amended: in a multi-turn interaction step, the reserved
end-of-interaction token ends exactly that step's input loop — inputs
after the token are never consumed — and the step completes with its
rendered transcript as result; the token itself never terminates the
flow: a flow exit can only follow from the empty-result failure rule,
which does not fire whenever the transcript is non-empty (a non-empty
seeded prompt or at least one human turn before the token). -/
theorem c9_amended (ai : List ChatMsg → List Char × List ChatMsg)
    (p : List Char) (pre post : List (List Char))
    (hpre : endToken ∉ pre) :
    interactionResult ai p (pre ++ endToken :: post) =
      interactionResult ai p (pre ++ [endToken]) ∧
    (∃ hist, interactionResult ai p (pre ++ endToken :: post) =
      some (render hist)) ∧
    ((p ≠ [] ∨ pre ≠ []) → ∀ r,
      interactionResult ai p (pre ++ endToken :: post) = some r →
      failExitCode r = none) := by
  obtain ⟨h2, heq, hgrow⟩ := interactRun_end_some ai pre post (seedHist p) hpre
  refine ⟨?_, ⟨h2, ?_⟩, ?_⟩
  · unfold interactionResult
    rw [interactRun_stops_at_end ai pre post (seedHist p) hpre]
  · unfold interactionResult
    rw [heq]
    rfl
  · intro hor r hr
    unfold interactionResult at hr
    rw [heq] at hr
    have hr2 : r = render h2 := by
      simpa using hr.symm
    have hne : h2 ≠ [] := by
      rcases hor with hp | hpr
      · have hseed : (seedHist p).length = 1 := by
          unfold seedHist
          rw [if_neg hp]
          rfl
        have := interactRun_length ai _ _ _ heq
        rw [hseed] at this
        intro hcon
        rw [hcon] at this
        simp at this
      · have := hgrow hpr
        intro hcon
        rw [hcon] at this
        simp at this
    rw [hr2]
    unfold failExitCode
    rw [if_neg (render_ne_nil h2 hne)]

/-- Witness for `c9_amended`: one human turn, then the end token; the
trailing scripted input is ignored and the transcript is non-empty. -/
theorem c9_witness :
    interactionResult aiEcho "hi".toList
        (["x".toList] ++ endToken :: ["y".toList]) =
      interactionResult aiEcho "hi".toList (["x".toList] ++ [endToken]) :=
  (c9_amended aiEcho "hi".toList ["x".toList] ["y".toList] (by decide)).1
